import Mathlib

/-!
Verification development for the DH group-exchange module (dh-gex.c) of
libssh.  The definitions below are a shallow embedding of the C source:
big integers become `Nat`, fallible external collaborators (bignum
allocation, RNG, packet send, ...) become explicit boolean/value oracles
threaded through the functions, and the moduli-file scanner is modelled
down to the character stream consumed by `getc`/`fscanf`.
-/

namespace DhGex

/-! ## Handshake state machine (client side) -/

/-- The `dh_handshake_state` values exercised by dh-gex.c: `DH_STATE_INIT`
(idle), `DH_STATE_REQUEST_SENT`, `DH_STATE_INIT_SENT`,
`DH_STATE_NEWKEYS_SENT`. -/
inductive DHState where
  | idle
  | requestSent
  | initSent
  | newkeysSent
  deriving DecidableEq, Repr

/-- Identities of the distinct `ssh_set_error` messages raised by the
dh-gex handlers.  `pNotGreaterOne` and `pEven` carry the same C text
("Invalid dh group parameter p") but come from different call sites;
`pBitsRange` has the distinct ": %d not in [%d:%d]" text. -/
inductive GexErr where
  | invalidState
  | oom
  | invalidPacket
  | pBitsRange
  | pNotGreaterOne
  | pEven
  | gOutOfRange
  | invalidReply
  | sharedSecretFail
  deriving DecidableEq, Repr

/-- Modelled from the spec: the group size bounds `DH_PMIN`, `DH_PREQ`,
`DH_PMAX` come from a header that is not part of the given source; the
spec's end-to-end property names the request bounds (min=1024,
preferred=2048, max=8192). -/
def DH_PMIN : Nat := 1024

/-- Modelled from the spec: preferred group size carried in the request. -/
def DH_PREQ : Nat := 2048

/-- Modelled from the spec: maximum group size carried in the request. -/
def DH_PMAX : Nat := 8192

/-- Fuel-driven helper for `numBits`; the fuel only has to dominate the
number of halvings. -/
def numBitsAux : Nat → Nat → Nat
  | 0, _ => 0
  | fuel + 1, n => if n = 0 then 0 else numBitsAux fuel (n / 2) + 1

/-- Bit length of a non-negative big integer, as computed by
`bignum_num_bits`: 0 for 0, otherwise one more than the bit length of
`n / 2`. -/
def numBits (n : Nat) : Nat := numBitsAux n n

/-- Outcome oracles for the external collaborators used by
`ssh_packet_client_dhgex_group`: bignum-context creation, `bignum_new`
for `one`/`pmin1`, `bignum_set_word`, `ssh_dh_generate_secret` (and the
secret `x` it would produce), `bignum_new` for `e`, `bignum_mod_exp`,
`ssh_buffer_pack`.  `ssh_packet_send`'s return value is ignored by the
source on the success path, so it needs no oracle. -/
structure GroupEnv where
  ctxOk : Bool
  bnNewOk : Bool
  setWordOk : Bool
  genSecretOk : Bool
  x : Nat
  eNewOk : Bool
  modExpOk : Bool
  packOk : Bool
  deriving DecidableEq, Repr

/-- Observable result of the GEX_GROUP packet handler: the
`dh_handshake_state` afterwards, whether `session_state` was set to
`SSH_SESSION_STATE_ERROR`, whether `ssh_dh_cleanup` tore the handshake
crypto context down, the last error recorded by `ssh_set_error`, whether
control reached the ephemeral-key generation call, the computed public
value `e`, and whether the packet was reported consumed
(`SSH_PACKET_USED`). -/
structure GroupOut where
  dhState : DHState
  sessionError : Bool
  cleaned : Bool
  err : Option GexErr
  keygenReached : Bool
  e : Option Nat
  consumed : Bool
  deriving DecidableEq, Repr

/-- The `goto error` tail of `ssh_packet_client_dhgex_group`: the
handshake context is cleaned up, the session moves to the error state,
and the packet is still reported consumed.  `dh_handshake_state` is not
touched on any error path of this handler. -/
def groupError (st : DHState) (err : Option GexErr) (keygen : Bool) : GroupOut :=
  ⟨st, true, true, err, keygen, none, true⟩

/-- Shallow embedding of `ssh_packet_client_dhgex_group` (dh-gex.c
lines 96-208).  `pkt` is the result of unpacking `(p, g)` from the
packet (`none` = unpack failure).  Note two faithful oddities of the
source: the `p <= 1` check records an error but does not jump to the
error label, and the final `ssh_packet_send` return code is ignored. -/
def handleGroup (st : DHState) (pkt : Option (Nat × Nat)) (env : GroupEnv) : GroupOut :=
  if env.ctxOk = false then groupError st none false
  else if st ≠ DHState.requestSent then groupError st (some .invalidState) false
  else if env.bnNewOk = false then groupError st (some .oom) false
  else
    match pkt with
    | none => groupError st (some .invalidPacket) false
    | some (p, g) =>
      if env.setWordOk = false then groupError st none false
      else if numBits p < DH_PMIN ∨ numBits p > DH_PMAX then
        groupError st (some .pBitsRange) false
      else
        -- The source's `p <= 1` branch calls ssh_set_error but lacks a
        -- `goto error`, so it only records a message and falls through.
        let errAfterP : Option GexErr :=
          if p ≤ 1 then some .pNotGreaterOne else none
        if p % 2 = 0 then groupError st (some .pEven) false
        else if g ≤ 1 ∨ g > p - 1 then groupError st (some .gOutOfRange) false
        else if env.genSecretOk = false then groupError st errAfterP true
        else if env.eNewOk = false then groupError st (some .oom) true
        else if env.modExpOk = false then groupError st errAfterP true
        else if env.packOk = false then groupError st errAfterP true
        else ⟨DHState.initSent, false, false, errAfterP, true, some (g ^ env.x % p), true⟩

/-- An all-succeeding collaborator environment with ephemeral secret 1. -/
def okGroupEnv : GroupEnv := ⟨true, true, true, true, 1, true, true, true⟩

/-- Oracles for `ssh_packet_client_dhgex_reply`'s collaborators:
`ssh_dh_import_next_pubkey_blob`, `ssh_dh_build_k`,
`ssh_buffer_add_u8`, `ssh_packet_send`. -/
structure ReplyEnv where
  importOk : Bool
  buildKOk : Bool
  addU8Ok : Bool
  sendOk : Bool
  deriving DecidableEq, Repr

/-- Observable result of the GEX_REPLY handler. -/
structure ReplyOut where
  dhState : DHState
  sessionError : Bool
  cleaned : Bool
  err : Option GexErr
  callbacksRemoved : Bool
  consumed : Bool
  deriving DecidableEq, Repr

/-- Shallow embedding of `ssh_packet_client_dhgex_reply` (dh-gex.c
lines 210-259).  `pkt` is the unpacked `(hostkey blob, f, signature)`
triple, represented abstractly (`none` = unpack failure).  The source
contains no check of `dh_handshake_state`. -/
def handleReply (st : DHState) (pkt : Option (Nat × Nat × Nat)) (env : ReplyEnv) : ReplyOut :=
  match pkt with
  | none => ⟨st, true, true, some .invalidReply, true, true⟩
  | some _ =>
    if env.importOk = false then ⟨st, true, true, none, true, true⟩
    else if env.buildKOk = false then ⟨st, true, true, some .sharedSecretFail, true, true⟩
    else if env.addU8Ok = false then ⟨st, true, true, none, true, true⟩
    else if env.sendOk = false then ⟨st, true, true, none, true, true⟩
    else ⟨DHState.newkeysSent, false, false, none, true, true⟩

/-- Oracles for `ssh_client_dhgex_init`'s collaborators:
`ssh_dh_init_common`, `ssh_buffer_pack`, `ssh_packet_send`. -/
structure InitEnv where
  commonOk : Bool
  packOk : Bool
  sendOk : Bool
  deriving DecidableEq, Repr

/-- Observable result of `ssh_client_dhgex_init`: whether it returned
`SSH_OK`, the `dh_handshake_state` afterwards, and whether
`ssh_dh_cleanup` released the partial crypto context. -/
structure InitOut where
  ok : Bool
  dhState : DHState
  cleaned : Bool
  deriving DecidableEq, Repr

/-- Shallow embedding of `ssh_client_dhgex_init` (dh-gex.c lines
59-90).  The state is set to `requestSent` before `ssh_packet_send`, and
the error label does not restore it. -/
def dhgexInit (st : DHState) (env : InitEnv) : InitOut :=
  if env.commonOk = false then ⟨false, st, true⟩
  else if env.packOk = false then ⟨false, st, true⟩
  else if env.sendOk = false then ⟨false, DHState.requestSent, true⟩
  else ⟨true, DHState.requestSent, false⟩

/-! ## Server-side moduli selection -/

/-- Shallow embedding of `dhgroup_better_size` (dh-gex.c lines 277-320):
is the proposed modulus size more appropriate than the current one?
Each branch mirrors one early return of the C function, in order. -/
def better (pmin pn pmax cur prop : Nat) : Bool :=
  if cur = prop then false
  else if cur = pn then false
  else if cur = 0 ∧ pmin ≤ prop ∧ prop ≤ pmax then true
  else if prop < pmin ∨ prop > pmax then false
  else if cur = 0 then false
  else if pn ≤ prop ∧ prop < cur then true
  else if prop ≤ pn ∧ cur < prop then true
  else if pn ≤ prop ∧ cur < pn then true
  else false

/-- The best-size update of the scan loop (dh-gex.c lines 392-396):
adopt the proposed size when it differs from the current best and
`dhgroup_better_size` approves. -/
def stepBest (pmin pn pmax best prop : Nat) : Nat :=
  if prop ≠ best ∧ better pmin pn pmax best prop = true then prop else best

/-- Final best size after scanning a sequence of qualifying records whose
parsed `size` fields are `sizes`; each record's effective (proposed)
size is `size + 1` and the best size starts at 0 (none). -/
def bestSizeOfSizes (pmin pn pmax : Nat) (sizes : List Nat) : Nat :=
  sizes.foldl (fun b sz => stepBest pmin pn pmax b (sz + 1)) 0

/-- Preference rank of a proposed size for the analysis of
`dhgroup_better_size`: 0 is best (exactly `pn`); sizes at or above `pn`
rank by their distance above `pn`, and every size below `pn` ranks
after every in-window size at or above `pn`, ordered by distance below. -/
def key (pn pmax s : Nat) : Nat :=
  if pn ≤ s then s - pn else pmax + 1 + (pn - s)

/-- Rank-minimising accumulator step (0 meaning no size held yet). -/
def mergeB (pn pmax b p : Nat) : Nat :=
  if b = 0 then p else if key pn pmax p < key pn pmax b then p else b

/-- Smallest element of a list, if any. -/
def listMin : List Nat → Option Nat
  | [] => none
  | a :: l =>
    match listMin l with
    | none => some a
    | some b => some (min a b)

/-- Largest element of a list, if any. -/
def listMax : List Nat → Option Nat
  | [] => none
  | a :: l =>
    match listMax l with
    | none => some a
    | some b => some (max a b)

/-- In-window effective sizes of a sequence of record size fields: each
record of parsed size `sz` proposes `sz + 1`, and only proposals inside
`[pmin, pmax]` can ever be adopted. -/
def candSizes (pmin pmax : Nat) (sizes : List Nat) : List Nat :=
  (sizes.map (fun sz => sz + 1)).filter (fun s => decide (pmin ≤ s ∧ s ≤ pmax))

/-- The final best size as the claim describes the preference order
(this definition follows the claim's words, for comparison with
`bestSizeOfSizes`, which is translated from the source): the size equal
to `pn` when some candidate has it, otherwise the smallest in-window
candidate at or above `pn`, otherwise the largest in-window candidate
below `pn`, otherwise no selection. -/
def claimedBest (pmin pn pmax : Nat) (sizes : List Nat) : Nat :=
  if pn ∈ candSizes pmin pmax sizes then pn
  else
    match listMin ((candSizes pmin pmax sizes).filter (fun s => decide (pn ≤ s))) with
    | some m => m
    | none =>
      match listMax ((candSizes pmin pmax sizes).filter (fun s => decide (s < pn))) with
      | some m => m
      | none => 0

/-- Shallow embedding of `invn_chance` (dh-gex.c lines 326-331) as a
function of the drawn 32-bit value: true exactly when the draw is a
multiple of `n`. -/
def invnChance (nounce n : Nat) : Bool := nounce % n == 0

/-- Number of 32-bit draws for which `invn_chance` reports success. -/
def drawSuccessCount (n : Nat) : Nat :=
  ((Finset.range (2 ^ 32)).filter (fun x => invnChance x n = true)).card

/-! ### The moduli file as a character stream

`ssh_retrieve_dhgroup_file` reads an open `FILE` with `getc` and
`fscanf("%31s %zu %zu %zu %zu %31s %4095s\n", ...)`.  We model the file
as a `List Char` and translate the C stdio semantics: every `%s`/`%zu`
conversion first skips whitespace (which may cross line boundaries),
`%s` then reads up to its width in non-whitespace characters, `%zu`
reads a digit run (sign prefixes and overflow of `size_t` are not
exercised by any claim and are left out), and a conversion that fails
leaves the offending character unread.  The trailing `"\n"` directive
skips any amount of whitespace. -/

/-- Whitespace characters recognised by C `isspace`. -/
def isWsChar (c : Char) : Bool :=
  c == ' ' || c == '\t' || c == '\n' || c == '\r' || c == '\x0b' || c == '\x0c'

/-- Skip leading whitespace, as the `fscanf` conversions do. -/
def skipWs (s : List Char) : List Char := s.dropWhile isWsChar

/-- Consume characters up to and including the next newline (the
`do getc while != newline and != EOF` recovery loop of the source). -/
def dropLine : List Char → List Char
  | [] => []
  | c :: r => if c == '\n' then r else dropLine r

/-- Read up to `w` further non-whitespace characters of the current
token (the width-limited tail of a `%s` conversion). -/
def readTok : Nat → List Char → List Char × List Char
  | 0, s => ([], s)
  | _ + 1, [] => ([], [])
  | w + 1, c :: r =>
    if isWsChar c then ([], c :: r)
    else
      let p := readTok w r
      (c :: p.1, p.2)

/-- A `%s` conversion with width `wr + 1`: skip whitespace, fail only at
end of input, otherwise read one character plus up to `wr` more. -/
def scanStr (wr : Nat) (s : List Char) : Option (List Char × List Char) :=
  match skipWs s with
  | [] => none
  | c :: r =>
    let p := readTok wr r
    some (c :: p.1, p.2)

/-- Numeric value of a digit run. -/
def digitsVal (ds : List Char) : Nat :=
  ds.foldl (fun a c => a * 10 + (c.toNat - 48)) 0

/-- A `%zu` conversion: skip whitespace, then require at least one
digit; on failure (end of input or a non-digit first character) the
stream after the whitespace skip is where reading resumes. -/
def scanNat (s : List Char) : Option (Nat × List Char) :=
  let s1 := skipWs s
  let ds := s1.takeWhile Char.isDigit
  if ds.isEmpty then none
  else some (digitsVal ds, s1.dropWhile Char.isDigit)

/-- One parsed moduli row (timestamp, type, tests, tries, size,
generator, modulus), mirroring the local variables of
`ssh_retrieve_dhgroup_file`. -/
structure Rec7 where
  ts : List Char
  ty : Nat
  tests : Nat
  tries : Nat
  size : Nat
  gen : List Char
  modl : List Char
  deriving DecidableEq, Repr

/-- Result of one `fscanf` call: end of input before the first
conversion (`rc == EOF`), a short read (`rc < 7`, with the stream
position where scanning stopped), or a full record plus the position
after the trailing whitespace directive. -/
inductive FRes where
  | eofR
  | shortR (rest : List Char)
  | fullR (r : Rec7) (rest : List Char)
  deriving DecidableEq, Repr

/-- The `fscanf(moduli, "%31s %zu %zu %zu %zu %31s %4095s\n", ...)` call
of dh-gex.c line 366, over the modelled stream. -/
def fscanfRec (s : List Char) : FRes :=
  match scanStr 30 s with
  | none => FRes.eofR
  | some (ts, s1) =>
    match scanNat s1 with
    | none => FRes.shortR (skipWs s1)
    | some (ty, s2) =>
      match scanNat s2 with
      | none => FRes.shortR (skipWs s2)
      | some (tests, s3) =>
        match scanNat s3 with
        | none => FRes.shortR (skipWs s3)
        | some (tries, s4) =>
          match scanNat s4 with
          | none => FRes.shortR (skipWs s4)
          | some (size, s5) =>
            match scanStr 30 s5 with
            | none => FRes.shortR (skipWs s5)
            | some (gen, s6) =>
              match scanStr 4094 s6 with
              | none => FRes.shortR (skipWs s6)
              | some (modl, s7) =>
                FRes.fullR ⟨ts, ty, tests, tries, size, gen, modl⟩ (skipWs s7)

/-- The mutable locals of `ssh_retrieve_dhgroup_file`: current best
size, tied-line count at that size (`best_nlines`), the held generator
and modulus strings, the line counter, and the lines for which an
"Invalid moduli entry" warning was logged. -/
structure SelSt where
  bestSize : Nat
  bestN : Nat
  bestGen : Option (List Char)
  bestMod : Option (List Char)
  line : Nat
  warns : List Nat
  deriving DecidableEq, Repr

/-- The initial selection state (`*best_size == 0`, nothing held). -/
def initSel : SelSt := ⟨0, 0, none, none, 0, []⟩

/-- Processing of one fully parsed record (dh-gex.c lines 387-414):
the safe-prime/tested filter, the best-size update, the tied-line
count, and the reservoir replacement with its `strdup` calls.  `rng`
supplies the 32-bit draws of `invn_chance` (consumed only when the
record ties the current best size, per the `&&` short-circuit);
`allocOk` tells whether the `strdup` calls succeed, `none` modelling
the `SSH_ERROR` return on allocation failure. -/
def processRec (pmin pn pmax : Nat) (r : Rec7) (rng : List Nat) (allocOk : Bool)
    (st : SelSt) : Option (SelSt × List Nat) :=
  if r.ty ≠ 2 ∨ r.tests &&& 4 = 0 then some (st, rng)
  else
    let proposed := r.size + 1
    let st2 : SelSt :=
      if proposed ≠ st.bestSize ∧ better pmin pn pmax st.bestSize proposed = true
      then { st with bestN := 0, bestSize := proposed }
      else st
    let st3 : SelSt :=
      if proposed = st2.bestSize then { st2 with bestN := st2.bestN + 1 } else st2
    if proposed = st3.bestSize then
      if invnChance (rng.headD 0) st3.bestN then
        if allocOk then
          some ({ st3 with bestGen := some r.gen, bestMod := some r.modl }, rng.tail)
        else none
      else some (st3, rng.tail)
    else some (st3, rng)

/-- The scan loop of `ssh_retrieve_dhgroup_file` (dh-gex.c lines
353-415): comment skipping, `fscanf` parsing with its malformed-line
recovery, and `processRec` on each full record.  `fuel` dominates the
stream length; the stream shrinks at every iteration. -/
def scanLoop (pmin pn pmax : Nat) : Nat → List Char → List Nat → Bool → SelSt → Option SelSt
  | 0, _, _, _, _ => none
  | fuel + 1, s, rng, allocOk, st =>
    let st1 : SelSt := { st with line := st.line + 1 }
    match s with
    | [] => some st1
    | c :: rest =>
      if c == '#' then scanLoop pmin pn pmax fuel (dropLine rest) rng allocOk st1
      else
        match fscanfRec (c :: rest) with
        | FRes.eofR => some st1
        | FRes.shortR r2 =>
          scanLoop pmin pn pmax fuel (dropLine r2) rng allocOk
            { st1 with warns := st1.warns ++ [st1.line] }
        | FRes.fullR r r2 =>
          match processRec pmin pn pmax r rng allocOk st1 with
          | none => none
          | some (st4, rng2) => scanLoop pmin pn pmax fuel r2 rng2 allocOk st4

/-- `ssh_retrieve_dhgroup_file` over a whole stream: run the loop with
adequate fuel from the initial state. -/
def scanFile (pmin pn pmax : Nat) (s : List Char) (rng : List Nat) (allocOk : Bool) :
    Option SelSt :=
  scanLoop pmin pn pmax (s.length + 1) s rng allocOk initSel

/-- The records produced by successive `fscanf` calls of the scan (in
scan order), mirroring `scanLoop`'s stream consumption exactly. -/
def parseRecs : Nat → List Char → List Rec7
  | 0, _ => []
  | fuel + 1, s =>
    match s with
    | [] => []
    | c :: rest =>
      if c == '#' then parseRecs fuel (dropLine rest)
      else
        match fscanfRec (c :: rest) with
        | FRes.eofR => []
        | FRes.shortR r2 => parseRecs fuel (dropLine r2)
        | FRes.fullR r r2 => r :: parseRecs fuel r2

/-- A record qualifies for the bounds when it is a tested safe prime
whose effective size lies in the window. -/
def qualRec (pmin pmax : Nat) (r : Rec7) : Prop :=
  r.ty = 2 ∧ r.tests &&& 4 ≠ 0 ∧ pmin ≤ r.size + 1 ∧ r.size + 1 ≤ pmax

instance (pmin pmax : Nat) (r : Rec7) : Decidable (qualRec pmin pmax r) := by
  unfold qualRec; infer_instance

/-- Hex digit test, as `BN_hex2bn` accepts. -/
def isHexDigit (c : Char) : Bool :=
  c.isDigit || ('a' ≤ c && c ≤ 'f') || ('A' ≤ c && c ≤ 'F')

/-- Value of one hex digit. -/
def hexDigitVal (c : Char) : Nat :=
  if c.isDigit then c.toNat - 48
  else if 'a' ≤ c && c ≤ 'f' then c.toNat - 87
  else c.toNat - 55

/-- Shallow embedding of `bignum_hex2bn`: parse the longest hex-digit
prefix; fail (`rc == 0`) when there is none or no string is held. -/
def hex2bn : Option (List Char) → Option Nat
  | none => none
  | some s =>
    let ds := s.takeWhile isHexDigit
    if ds.isEmpty then none
    else some (ds.foldl (fun a c => a * 16 + hexDigitVal c) 0)

/-- Outcome of `ssh_retrieve_dhgroup`: either a chosen (size, p, g) or
`SSH_ERROR`.  The source returns the same `SSH_ERROR` for an unreadable
file, a scan failure, an empty result (`*size == 0`) and hex-parse
failures. -/
inductive RetrOut where
  | ok (size p g : Nat)
  | err
  deriving DecidableEq, Repr

/-- Shallow embedding of `ssh_retrieve_dhgroup` (dh-gex.c lines
450-504).  `openOk` models whether `fopen(MODULI_FILE)` succeeds. -/
def retrieveDhgroup (openOk : Bool) (pmin pn pmax : Nat) (s : List Char)
    (rng : List Nat) (allocOk : Bool) : RetrOut :=
  if openOk = false then RetrOut.err
  else
    match scanFile pmin pn pmax s rng allocOk with
    | none => RetrOut.err
    | some st =>
      if st.bestSize = 0 then RetrOut.err
      else
        match hex2bn st.bestGen with
        | none => RetrOut.err
        | some g =>
          match hex2bn st.bestMod with
          | none => RetrOut.err
          | some p => RetrOut.ok st.bestSize p g

/-! ## Claim theorems: handshake state machine -/

set_option maxRecDepth 8000

/-- C1: the claim states that the client-side group validation rejects
every group with g ≥ p - 1, so that only 1 < g < p - 1 proceeds.  The
source rejects only g > p - 1: at the failing input p = 2^1023 + 1
(odd, bit length 1024) with g = p - 1 = 2^1023, the handler accepts the
group, reaches the ephemeral-key generation and moves to `initSent`,
contradicting the claim and the source's own comment saying the
generator must be smaller than p-1. -/
theorem c1_g_eq_p_minus_one_accepted :
    handleGroup DHState.requestSent (some (2 ^ 1023 + 1, 2 ^ 1023)) okGroupEnv =
      ⟨DHState.initSent, false, false, none, true, some (2 ^ 1023), true⟩ ∧
    (2 : Nat) ^ 1023 = (2 ^ 1023 + 1) - 1 :=
  ⟨by decide, (Nat.add_sub_cancel (2 ^ 1023) 1).symm⟩

/-- C2 (counterexample): at p = 1 (with g = 2, all collaborators fine,
state `requestSent`) the handler's recorded error is the bit-length
range error, not the error of the dedicated `p <= 1` check, refuting
the claim that processing stops at that check. -/
theorem c2_error_is_bitlength_not_p_check :
    (handleGroup DHState.requestSent (some (1, 2)) okGroupEnv).err =
      some GexErr.pBitsRange ∧
    some GexErr.pBitsRange ≠ some GexErr.pNotGreaterOne := by
  decide

/-- C2 (amended): every received group with p ≤ 1 is rejected, the
context is torn down, ephemeral-key generation is not reached and the
packet is reported consumed — but processing stops at the earlier
bit-length check (bit length of p is at most 1 < DH_PMIN), whose error
is the one recorded; the dedicated `p <= 1` comparison in the source
sets an error message without aborting and is unreachable with p ≤ 1. -/
theorem c2_p_le_one_rejected_at_bitlength :
    ∀ (p g : Nat) (env : GroupEnv), env.ctxOk = true → env.bnNewOk = true →
      env.setWordOk = true → p ≤ 1 →
      handleGroup DHState.requestSent (some (p, g)) env =
        groupError DHState.requestSent (some GexErr.pBitsRange) false := by
  intro p g env h1 h2 h3 hp
  have hb : numBits p < DH_PMIN := by interval_cases p <;> decide
  simp [handleGroup, h1, h2, h3, hb]

/-- C2 (witness): the amended theorem applied at p = 1, g = 2. -/
theorem c2_witness :
    handleGroup DHState.requestSent (some (1, 2)) okGroupEnv =
      groupError DHState.requestSent (some GexErr.pBitsRange) false :=
  c2_p_le_one_rejected_at_bitlength 1 2 okGroupEnv rfl rfl rfl (by decide)

/-- C6: a GEX_GROUP message received in any state other than
`requestSent` (with the bignum context allocated) is not processed: the
handler records the protocol-state error, tears the crypto context
down, marks the session state as error, never reaches key generation,
and still reports the packet as consumed. -/
theorem c6_group_wrong_state_terminal :
    ∀ (st : DHState) (pkt : Option (Nat × Nat)) (env : GroupEnv),
      st ≠ DHState.requestSent → env.ctxOk = true →
      handleGroup st pkt env =
        ⟨st, true, true, some GexErr.invalidState, false, none, true⟩ := by
  intro st pkt env hst hctx
  simp [handleGroup, groupError, hctx, hst]

/-- C6 (witness): the theorem applied in state `idle`. -/
theorem c6_witness :
    handleGroup DHState.idle (some (7, 3)) okGroupEnv =
      ⟨DHState.idle, true, true, some GexErr.invalidState, false, none, true⟩ :=
  c6_group_wrong_state_terminal DHState.idle (some (7, 3)) okGroupEnv (by decide) rfl

/-- C7: the GEX_REPLY handler never checks the handshake state: it
never produces the protocol-state error, and its result is the same
function of the packet and the collaborator outcomes for every incoming
state — identical on success (ending in `newkeysSent`), and identical
except for the untouched, passed-through state field on failure. -/
theorem c7_reply_ignores_state :
    ∀ (st : DHState) (pkt : Option (Nat × Nat × Nat)) (env : ReplyEnv),
      (handleReply st pkt env).err ≠ some GexErr.invalidState ∧
      handleReply st pkt env =
        (if (handleReply DHState.initSent pkt env).sessionError = true
         then { handleReply DHState.initSent pkt env with dhState := st }
         else handleReply DHState.initSent pkt env) := by
  intro st pkt env
  rcases env with ⟨i, b, a, se⟩
  cases pkt with
  | none => cases i <;> cases b <;> cases a <;> cases se <;> simp [handleReply]
  | some v => cases i <;> cases b <;> cases a <;> cases se <;> simp [handleReply]

/-- C7 (witness): the theorem applied from the idle state against the
post-init baseline. -/
theorem c7_witness :
    handleReply DHState.idle (some (1, 2, 3)) ⟨true, true, true, true⟩ =
      (if (handleReply DHState.initSent (some (1, 2, 3))
            ⟨true, true, true, true⟩).sessionError = true
       then { handleReply DHState.initSent (some (1, 2, 3))
                ⟨true, true, true, true⟩ with dhState := DHState.idle }
       else handleReply DHState.initSent (some (1, 2, 3)) ⟨true, true, true, true⟩) :=
  (c7_reply_ignores_state DHState.idle (some (1, 2, 3)) ⟨true, true, true, true⟩).2

/-- C8 (counterexample): when `ssh_packet_send` fails during
initiation, the handshake state was already advanced to `requestSent`
and the error path does not restore it, so the state after the failed
call differs from the state before, refuting the claim that the
session is never advanced on failure. -/
theorem c8_send_failure_advances_state :
    dhgexInit DHState.idle ⟨true, true, false⟩ = ⟨false, DHState.requestSent, true⟩ ∧
      DHState.requestSent ≠ DHState.idle := by
  decide

/-- C8 (amended): every failing initiation releases the partial crypto
context and returns an error; the handshake state is unchanged when the
common setup or the request encoding fails, but is left at
`requestSent` when only the send fails. -/
theorem c8_init_failure_behaviour :
    ∀ (st : DHState) (env : InitEnv),
      ((env.commonOk = false ∨ env.packOk = false) →
        dhgexInit st env = ⟨false, st, true⟩) ∧
      (env.commonOk = true → env.packOk = true → env.sendOk = false →
        dhgexInit st env = ⟨false, DHState.requestSent, true⟩) := by
  intro st env
  rcases env with ⟨c, pk, sd⟩
  cases c <;> cases pk <;> cases sd <;> simp [dhgexInit]

/-- C8 (witness): the amended theorem applied to a failing common
setup from the idle state. -/
theorem c8_witness :
    dhgexInit DHState.idle ⟨false, true, true⟩ = ⟨false, DHState.idle, true⟩ :=
  (c8_init_failure_behaviour DHState.idle ⟨false, true, true⟩).1 (Or.inl rfl)

/-! ## Claim theorems: reservoir draw probability -/

/-- Number of values below `N` that are multiples of `n`. -/
theorem card_range_filter_mod (n : Nat) (hn : 0 < n) (N : Nat) :
    ((Finset.range N).filter (fun x => x % n = 0)).card =
      if N = 0 then 0 else (N - 1) / n + 1 := by
  induction N with
  | zero => simp
  | succ m ih =>
    have hnm : m ∉ (Finset.range m).filter (fun x => x % n = 0) := by simp
    rw [Finset.range_succ, Finset.filter_insert]
    by_cases hm : m % n = 0
    · rw [if_pos hm, Finset.card_insert_of_not_mem hnm, ih]
      rcases Nat.eq_zero_or_pos m with h0 | h1
      · subst h0; simp
      · have hdvd : n ∣ m := Nat.dvd_of_mod_eq_zero hm
        have hs : m / n = (m - 1) / n + 1 := by
          conv_lhs => rw [show m = (m - 1) + 1 by omega]
          rw [Nat.succ_div, if_pos (by rwa [show m - 1 + 1 = m by omega])]
        rw [if_neg (Nat.pos_iff_ne_zero.mp h1)]
        simp only [if_neg (Nat.succ_ne_zero m), Nat.succ_sub_one]
        omega
    · rw [if_neg hm, ih]
      rcases Nat.eq_zero_or_pos m with h0 | h1
      · subst h0; exact absurd (Nat.zero_mod n) hm
      · have hdvd : ¬ n ∣ m := fun hd => hm (Nat.dvd_iff_mod_eq_zero.mp hd)
        have hs : m / n = (m - 1) / n := by
          conv_lhs => rw [show m = (m - 1) + 1 by omega]
          rw [Nat.succ_div, if_neg (by rwa [show m - 1 + 1 = m by omega]), Nat.add_zero]
        rw [if_neg (Nat.pos_iff_ne_zero.mp h1)]
        simp only [if_neg (Nat.succ_ne_zero m), Nat.succ_sub_one]
        omega

/-- The success count of `invn_chance` over all 32-bit draws is the
ceiling of `2^32 / n`. -/
theorem drawSuccessCount_eq (n : Nat) (hn : 0 < n) :
    drawSuccessCount n = (2 ^ 32 - 1) / n + 1 := by
  unfold drawSuccessCount
  rw [show ((Finset.range (2 ^ 32)).filter (fun x => invnChance x n = true)) =
        ((Finset.range (2 ^ 32)).filter (fun x => x % n = 0)) from
      Finset.filter_congr (fun x _ => by simp [invnChance])]
  rw [card_range_filter_mod n hn]
  norm_num

/-- C4 (counterexample): with three tied records seen, the replacement
probability of the held pair is not exactly 1/3: the number of 32-bit
draws for which `invn_chance` succeeds at n = 3, multiplied by 3, does
not give back 2^32. -/
theorem c4_one_third_draw_biased :
    drawSuccessCount 3 * 3 ≠ 2 ^ 32 := by
  rw [drawSuccessCount_eq 3 (by norm_num)]
  decide

/-- C4 (amended): the held pair is replaced exactly when the uniform
32-bit draw is a multiple of countAtBestSize, so the replacement
probability is `ceil(2^32 / count) / 2^32` — equal to the claimed
`1 / count` precisely when the count divides 2^32, and biased upward
otherwise; tie-breaking is therefore uniform only up to this modulo
rounding. -/
theorem c4_replacement_probability :
    ∀ n : Nat, 0 < n →
      (∀ x, invnChance x n = true ↔ x % n = 0) ∧
      drawSuccessCount n = (2 ^ 32 + n - 1) / n ∧
      (drawSuccessCount n * n = 2 ^ 32 ↔ n ∣ 2 ^ 32) := by
  intro n hn
  have h32 : (0 : Nat) < 2 ^ 32 := by norm_num
  refine ⟨fun x => by simp [invnChance], ?_, ?_⟩
  · rw [drawSuccessCount_eq n hn,
      show (2 ^ 32 + n - 1) = (2 ^ 32 - 1) + n by omega,
      Nat.add_div_right _ hn]
  · rw [drawSuccessCount_eq n hn]
    constructor
    · intro h
      exact dvd_of_mul_left_eq _ h
    · rintro ⟨k, hk⟩
      have hk1 : 1 ≤ k := by
        rcases Nat.eq_zero_or_pos k with h0 | h1
        · subst h0; simp at hk
        · exact h1
      have hmul : n * k = n + n * (k - 1) := by
        conv_lhs => rw [show k = 1 + (k - 1) by omega]
        rw [Nat.mul_add, Nat.mul_one]
      have he : 2 ^ 32 - 1 = (n - 1) + n * (k - 1) := by omega
      rw [he, Nat.add_mul_div_left _ _ hn, Nat.div_eq_of_lt (by omega), Nat.zero_add,
        show (k - 1 + 1) = k by omega, Nat.mul_comm]
      omega

/-- C4 (witness): the amended theorem applied at count 4 (a divisor of
2^32, where the probability is exact). -/
theorem c4_witness :
    drawSuccessCount 4 * 4 = 2 ^ 32 :=
  ((c4_replacement_probability 4 (by norm_num)).2.2).mpr ⟨2 ^ 30, by norm_num⟩


/-! ## Claim theorems: size-preference ordering -/

theorem better_true_iff (pmin pn pmax b p : Nat) (hpn : 1 ≤ pn) (hlo : pmin ≤ pn)
    (hhi : pn ≤ pmax) (hb : b = 0 ∨ (1 ≤ b ∧ pmin ≤ b ∧ b ≤ pmax)) (hp : 1 ≤ p) :
    better pmin pn pmax b p = true ↔
      p ≠ b ∧ (pmin ≤ p ∧ p ≤ pmax) ∧ (b = 0 ∨ key pn pmax p < key pn pmax b) := by
  unfold better key
  rcases hb with hb | hb <;> split_ifs <;> simp <;> omega

theorem stepBest_window (pmin pn pmax b p : Nat) (hpn : 1 ≤ pn) (hlo : pmin ≤ pn)
    (hhi : pn ≤ pmax) (hb : b = 0 ∨ (1 ≤ b ∧ pmin ≤ b ∧ b ≤ pmax)) (hp : 1 ≤ p)
    (hw : pmin ≤ p ∧ p ≤ pmax) :
    stepBest pmin pn pmax b p = mergeB pn pmax b p := by
  unfold stepBest mergeB
  by_cases hc : better pmin pn pmax b p = true
  · obtain ⟨hpb, _, hor⟩ := (better_true_iff pmin pn pmax b p hpn hlo hhi hb hp).mp hc
    rw [if_pos ⟨hpb, hc⟩]
    rcases hor with h0 | hk
    · rw [if_pos h0]
    · by_cases h0 : b = 0
      · rw [if_pos h0]
      · rw [if_neg h0, if_pos hk]
  · rw [if_neg (fun hand => hc hand.2)]
    by_cases hpb : p = b
    · subst hpb; split_ifs <;> omega
    · have hr : ¬(b = 0 ∨ key pn pmax p < key pn pmax b) := fun hor =>
        hc ((better_true_iff pmin pn pmax b p hpn hlo hhi hb hp).mpr ⟨hpb, hw, hor⟩)
      push_neg at hr
      rw [if_neg hr.1, if_neg (Nat.not_lt.mpr hr.2)]

theorem stepBest_out (pmin pn pmax b p : Nat) (hpn : 1 ≤ pn) (hlo : pmin ≤ pn)
    (hhi : pn ≤ pmax) (hb : b = 0 ∨ (1 ≤ b ∧ pmin ≤ b ∧ b ≤ pmax)) (hp : 1 ≤ p)
    (hw : ¬(pmin ≤ p ∧ p ≤ pmax)) :
    stepBest pmin pn pmax b p = b := by
  unfold stepBest
  exact if_neg (fun hand =>
    hw ((better_true_iff pmin pn pmax b p hpn hlo hhi hb hp).mp hand.2).2.1)

theorem stepBest_pres (pmin pn pmax b p : Nat) (hpn : 1 ≤ pn) (hlo : pmin ≤ pn)
    (hhi : pn ≤ pmax) (hb : b = 0 ∨ (1 ≤ b ∧ pmin ≤ b ∧ b ≤ pmax)) (hp : 1 ≤ p) :
    stepBest pmin pn pmax b p = 0 ∨
      (1 ≤ stepBest pmin pn pmax b p ∧ pmin ≤ stepBest pmin pn pmax b p ∧
        stepBest pmin pn pmax b p ≤ pmax) := by
  unfold stepBest
  by_cases hc : p ≠ b ∧ better pmin pn pmax b p = true
  · rw [if_pos hc]
    obtain ⟨_, hw, _⟩ := (better_true_iff pmin pn pmax b p hpn hlo hhi hb hp).mp hc.2
    exact Or.inr ⟨hp, hw.1, hw.2⟩
  · rw [if_neg hc]; exact hb

theorem goBest_eq_mergeFold (pmin pn pmax : Nat) (hpn : 1 ≤ pn) (hlo : pmin ≤ pn)
    (hhi : pn ≤ pmax) :
    ∀ (l : List Nat) (b : Nat), (b = 0 ∨ (1 ≤ b ∧ pmin ≤ b ∧ b ≤ pmax)) →
      l.foldl (fun acc sz => stepBest pmin pn pmax acc (sz + 1)) b =
        ((l.map (fun sz => sz + 1)).filter
            (fun s => decide (pmin ≤ s ∧ s ≤ pmax))).foldl (mergeB pn pmax) b := by
  intro l
  induction l with
  | nil => intro b _; rfl
  | cons sz t ih =>
    intro b hb
    simp only [List.foldl_cons, List.map_cons, List.filter_cons]
    by_cases hw : pmin ≤ sz + 1 ∧ sz + 1 ≤ pmax
    · rw [if_pos (by simpa using hw), List.foldl_cons,
        stepBest_window pmin pn pmax b (sz + 1) hpn hlo hhi hb (Nat.le_add_left 1 sz) hw,
        ← stepBest_window pmin pn pmax b (sz + 1) hpn hlo hhi hb (Nat.le_add_left 1 sz) hw]
      exact ih _ (stepBest_pres pmin pn pmax b (sz + 1) hpn hlo hhi hb (Nat.le_add_left 1 sz))
    · rw [if_neg (by simpa using hw),
        stepBest_out pmin pn pmax b (sz + 1) hpn hlo hhi hb (Nat.le_add_left 1 sz) hw]
      exact ih b hb


theorem mergeFold_spec (pn pmax : Nat) :
    ∀ (l : List Nat) (b : Nat), 1 ≤ b → (∀ x ∈ l, 1 ≤ x) →
      (l.foldl (mergeB pn pmax) b = b ∨ l.foldl (mergeB pn pmax) b ∈ l) ∧
      key pn pmax (l.foldl (mergeB pn pmax) b) ≤ key pn pmax b ∧
      (∀ x ∈ l, key pn pmax (l.foldl (mergeB pn pmax) b) ≤ key pn pmax x) := by
  intro l
  induction l with
  | nil => intro b _ _; exact ⟨Or.inl rfl, le_refl _, by simp⟩
  | cons a t ih =>
    intro b hb hl
    simp only [List.foldl_cons]
    have hm : mergeB pn pmax b a = if key pn pmax a < key pn pmax b then a else b := by
      unfold mergeB; rw [if_neg (by omega)]
    have hlt : ∀ x ∈ t, 1 ≤ x := fun x hx => hl x (List.mem_cons_of_mem a hx)
    by_cases hk : key pn pmax a < key pn pmax b
    · rw [hm, if_pos hk]
      obtain ⟨hmem, hle, hall⟩ := ih a (hl a (by simp)) hlt
      refine ⟨?_, ?_, ?_⟩
      · rcases hmem with h | h
        · exact Or.inr (by simp [h])
        · exact Or.inr (List.mem_cons_of_mem a h)
      · exact le_trans hle (le_of_lt hk)
      · intro x hx
        rcases List.mem_cons.mp hx with h | h
        · rw [h]; exact hle
        · exact hall x h
    · rw [hm, if_neg hk]
      obtain ⟨hmem, hle, hall⟩ := ih b hb hlt
      refine ⟨?_, hle, ?_⟩
      · rcases hmem with h | h
        · exact Or.inl h
        · exact Or.inr (List.mem_cons_of_mem a h)
      · intro x hx
        rcases List.mem_cons.mp hx with h | h
        · rw [h]; exact le_trans hle (Nat.not_lt.mp hk)
        · exact hall x h

theorem mergeFold_min (pn pmax : Nat) (cand : List Nat) (hc : ∀ x ∈ cand, 1 ≤ x)
    (hne : cand ≠ []) :
    cand.foldl (mergeB pn pmax) 0 ∈ cand ∧
      ∀ x ∈ cand, key pn pmax (cand.foldl (mergeB pn pmax) 0) ≤ key pn pmax x := by
  cases cand with
  | nil => exact absurd rfl hne
  | cons c rest =>
    have hc1 : 1 ≤ c := hc c (by simp)
    have hm0 : mergeB pn pmax 0 c = c := by unfold mergeB; rw [if_pos rfl]
    rw [List.foldl_cons, hm0]
    obtain ⟨hmem, hle, hall⟩ := mergeFold_spec pn pmax rest c hc1
      (fun x hx => hc x (List.mem_cons_of_mem c hx))
    constructor
    · rcases hmem with h | h
      · simp [h]
      · exact List.mem_cons_of_mem c h
    · intro x hx
      rcases List.mem_cons.mp hx with h | h
      · rw [h]; exact hle
      · exact hall x h

theorem listMin_eq_none : ∀ (l : List Nat), listMin l = none ↔ l = [] := by
  intro l
  cases l with
  | nil => simp [listMin]
  | cons a t =>
    simp only [listMin]
    cases listMin t <;> simp

theorem listMin_spec : ∀ (l : List Nat) (m : Nat), listMin l = some m →
    m ∈ l ∧ ∀ x ∈ l, m ≤ x := by
  intro l
  induction l with
  | nil => intro m h; simp [listMin] at h
  | cons a t ih =>
    intro m h
    simp only [listMin] at h
    cases ht : listMin t with
    | none =>
      rw [ht] at h
      have : t = [] := (listMin_eq_none t).mp ht
      subst this
      simp only [Option.some.injEq] at h
      subst h
      simp
    | some b =>
      rw [ht] at h
      simp only [Option.some.injEq] at h
      obtain ⟨hbm, hble⟩ := ih b ht
      subst h
      constructor
      · rcases Nat.le_total a b with hab | hab
        · simp [Nat.min_eq_left hab]
        · rw [Nat.min_eq_right hab]
          exact List.mem_cons_of_mem a hbm
      · intro x hx
        rcases List.mem_cons.mp hx with hxa | hxt
        · rw [hxa]; exact Nat.min_le_left a b
        · exact le_trans (Nat.min_le_right a b) (hble x hxt)

theorem listMax_eq_none : ∀ (l : List Nat), listMax l = none ↔ l = [] := by
  intro l
  cases l with
  | nil => simp [listMax]
  | cons a t =>
    simp only [listMax]
    cases listMax t <;> simp

theorem listMax_spec : ∀ (l : List Nat) (m : Nat), listMax l = some m →
    m ∈ l ∧ ∀ x ∈ l, x ≤ m := by
  intro l
  induction l with
  | nil => intro m h; simp [listMax] at h
  | cons a t ih =>
    intro m h
    simp only [listMax] at h
    cases ht : listMax t with
    | none =>
      rw [ht] at h
      have : t = [] := (listMax_eq_none t).mp ht
      subst this
      simp only [Option.some.injEq] at h
      subst h
      simp
    | some b =>
      rw [ht] at h
      simp only [Option.some.injEq] at h
      obtain ⟨hbm, hble⟩ := ih b ht
      subst h
      constructor
      · rcases Nat.le_total a b with hab | hab
        · rw [Nat.max_eq_right hab]
          exact List.mem_cons_of_mem a hbm
        · simp [Nat.max_eq_left hab]
      · intro x hx
        rcases List.mem_cons.mp hx with hxa | hxt
        · rw [hxa]; exact Nat.le_max_left a b
        · exact le_trans (hble x hxt) (Nat.le_max_right a b)

theorem key_inj (pn pmax b1 b2 : Nat) (h1 : b1 ≤ pmax) (h2 : b2 ≤ pmax)
    (h : key pn pmax b1 = key pn pmax b2) : b1 = b2 := by
  unfold key at h
  split_ifs at h <;> omega

theorem candSizes_facts (pmin pmax : Nat) (sizes : List Nat) :
    ∀ x ∈ candSizes pmin pmax sizes, 1 ≤ x ∧ pmin ≤ x ∧ x ≤ pmax := by
  intro x hx
  unfold candSizes at hx
  obtain ⟨hmem, hdec⟩ := List.mem_filter.mp hx
  obtain ⟨sz, _, hsz⟩ := List.mem_map.mp hmem
  have hw : pmin ≤ x ∧ x ≤ pmax := of_decide_eq_true hdec
  exact ⟨by omega, hw⟩

theorem bestSize_char (pmin pn pmax : Nat) (sizes : List Nat) (hpn : 1 ≤ pn)
    (hlo : pmin ≤ pn) (hhi : pn ≤ pmax) :
    (candSizes pmin pmax sizes = [] → bestSizeOfSizes pmin pn pmax sizes = 0) ∧
    (candSizes pmin pmax sizes ≠ [] →
      bestSizeOfSizes pmin pn pmax sizes ∈ candSizes pmin pmax sizes ∧
      ∀ x ∈ candSizes pmin pmax sizes,
        key pn pmax (bestSizeOfSizes pmin pn pmax sizes) ≤ key pn pmax x) := by
  have heq : bestSizeOfSizes pmin pn pmax sizes =
      (candSizes pmin pmax sizes).foldl (mergeB pn pmax) 0 :=
    goBest_eq_mergeFold pmin pn pmax hpn hlo hhi sizes 0 (Or.inl rfl)
  constructor
  · intro hc; rw [heq, hc]; rfl
  · intro hne
    rw [heq]
    exact mergeFold_min pn pmax _ (fun x hx => (candSizes_facts pmin pmax sizes x hx).1) hne


theorem bestSize_eq_claimedBest (pmin pn pmax : Nat) (sizes : List Nat) (hpn : 1 ≤ pn)
    (hlo : pmin ≤ pn) (hhi : pn ≤ pmax) :
    bestSizeOfSizes pmin pn pmax sizes = claimedBest pmin pn pmax sizes := by
  have hchar := bestSize_char pmin pn pmax sizes hpn hlo hhi
  have hfacts := candSizes_facts pmin pmax sizes
  unfold claimedBest
  by_cases hmem : pn ∈ candSizes pmin pmax sizes
  · rw [if_pos hmem]
    have hne : candSizes pmin pmax sizes ≠ [] := by
      intro h; rw [h] at hmem; simp at hmem
    obtain ⟨hBmem, hBle⟩ := hchar.2 hne
    have h1 := hBle pn hmem
    have hkey_pn : key pn pmax pn = 0 := by
      unfold key; rw [if_pos (le_refl pn)]; omega
    exact key_inj pn pmax _ _ (hfacts _ hBmem).2.2 hhi (by omega)
  · rw [if_neg hmem]
    cases hmin : listMin ((candSizes pmin pmax sizes).filter (fun s => decide (pn ≤ s))) with
    | some m =>
      obtain ⟨hmA, hmLe⟩ := listMin_spec _ m hmin
      obtain ⟨hmC, hmdec⟩ := List.mem_filter.mp hmA
      have hpnm : pn ≤ m := of_decide_eq_true hmdec
      have hne : candSizes pmin pmax sizes ≠ [] := by
        intro h; rw [h] at hmC; simp at hmC
      obtain ⟨hBmem, hBle⟩ := hchar.2 hne
      have hBpmax := (hfacts _ hBmem).2.2
      have hmpmax := (hfacts _ hmC).2.2
      have h2 := hBle m hmC
      have hkm : key pn pmax m ≤
          key pn pmax (bestSizeOfSizes pmin pn pmax sizes) := by
        by_cases hBpn : pn ≤ bestSizeOfSizes pmin pn pmax sizes
        · have hBA : bestSizeOfSizes pmin pn pmax sizes ∈
              (candSizes pmin pmax sizes).filter (fun s => decide (pn ≤ s)) :=
            List.mem_filter.mpr ⟨hBmem, decide_eq_true hBpn⟩
          have h3 := hmLe _ hBA
          unfold key
          rw [if_pos hpnm, if_pos hBpn]
          omega
        · unfold key
          rw [if_pos hpnm, if_neg hBpn]
          omega
      show bestSizeOfSizes pmin pn pmax sizes = m
      exact key_inj pn pmax _ _ hBpmax hmpmax (by omega)
    | none =>
      have habove := (listMin_eq_none _).mp hmin
      cases hmax : listMax ((candSizes pmin pmax sizes).filter (fun s => decide (s < pn))) with
      | some m =>
        obtain ⟨hmA, hmGe⟩ := listMax_spec _ m hmax
        obtain ⟨hmC, hmdec⟩ := List.mem_filter.mp hmA
        have hmpn : m < pn := of_decide_eq_true hmdec
        have hne : candSizes pmin pmax sizes ≠ [] := by
          intro h; rw [h] at hmC; simp at hmC
        obtain ⟨hBmem, hBle⟩ := hchar.2 hne
        have hBpmax := (hfacts _ hBmem).2.2
        have hmpmax := (hfacts _ hmC).2.2
        have hBpn : ¬ pn ≤ bestSizeOfSizes pmin pn pmax sizes := by
          intro hc
          have hmem2 : bestSizeOfSizes pmin pn pmax sizes ∈
              (candSizes pmin pmax sizes).filter (fun s => decide (pn ≤ s)) :=
            List.mem_filter.mpr ⟨hBmem, decide_eq_true hc⟩
          rw [habove] at hmem2
          simp at hmem2
        have hBbelow : bestSizeOfSizes pmin pn pmax sizes ∈
            (candSizes pmin pmax sizes).filter (fun s => decide (s < pn)) :=
          List.mem_filter.mpr ⟨hBmem, decide_eq_true (by omega)⟩
        have hBm := hmGe _ hBbelow
        have h2 := hBle m hmC
        have hkm : key pn pmax m ≤
            key pn pmax (bestSizeOfSizes pmin pn pmax sizes) := by
          unfold key
          rw [if_neg (by omega), if_neg hBpn]
          omega
        show bestSizeOfSizes pmin pn pmax sizes = m
        exact key_inj pn pmax _ _ hBpmax hmpmax (by omega)
      | none =>
        have hbelow := (listMax_eq_none _).mp hmax
        have hc : candSizes pmin pmax sizes = [] := by
          cases hcc : candSizes pmin pmax sizes with
          | nil => rfl
          | cons c rest =>
            have hcC : c ∈ candSizes pmin pmax sizes := by rw [hcc]; simp
            by_cases hcp : pn ≤ c
            · have hmem2 : c ∈ (candSizes pmin pmax sizes).filter
                  (fun s => decide (pn ≤ s)) :=
                List.mem_filter.mpr ⟨hcC, decide_eq_true hcp⟩
              rw [habove] at hmem2
              simp at hmem2
            · have hmem2 : c ∈ (candSizes pmin pmax sizes).filter
                  (fun s => decide (s < pn)) :=
                List.mem_filter.mpr ⟨hcC, decide_eq_true (by omega)⟩
              rw [hbelow] at hmem2
              simp at hmem2
        show bestSizeOfSizes pmin pn pmax sizes = 0
        exact hchar.1 hc

theorem candSizes_full_range (pmin pn pmax : Nat) (h1 : 1 ≤ pmin) :
    candSizes pmin pmax ((List.range' pmin (pmax + 1 - pmin)).map (fun s => s - 1)) =
      List.range' pmin (pmax + 1 - pmin) := by
  unfold candSizes
  rw [List.map_map]
  have hmap : (List.range' pmin (pmax + 1 - pmin)).map
      ((fun sz => sz + 1) ∘ (fun s => s - 1)) = List.range' pmin (pmax + 1 - pmin) := by
    conv_rhs => rw [← List.map_id (List.range' pmin (pmax + 1 - pmin))]
    apply List.map_congr_left
    intro s hs
    have hm := List.mem_range'_1.mp hs
    simp only [Function.comp_apply, id_eq]
    omega
  rw [hmap]
  apply List.filter_eq_self.mpr
  intro s hs
  have hm := List.mem_range'_1.mp hs
  exact decide_eq_true (by omega)


/-- C3 (counterexample): with bounds min = 0, preferred = 0, max = 5
(which satisfy min ≤ preferred ≤ max) and one qualifying record of
effective size 1, the claimed ordering would select size 1 (the
smallest candidate at or above preferred within the window), but the
source selects nothing: `dhgroup_better_size` returns false whenever
the current best (initially 0) equals the preferred size, so a
preferred size of 0 blocks every adoption. -/
theorem c3_preferred_zero_not_selected :
    bestSizeOfSizes 0 0 5 [0] = 0 ∧ claimedBest 0 0 5 [0] = 1 ∧ (0 : Nat) ≠ 1 := by
  decide

/-- C3 (amended): for every bounds with 1 ≤ preferred and
min ≤ preferred ≤ max and every finite sequence of qualifying record
sizes, the fold of `dhgroup_better_size` selects exactly the size the
claim describes — preferred when present, else the smallest in-window
candidate at or above preferred, else the largest in-window candidate
below preferred, else none; in particular, with one qualifying record
at every size of `[min, max]` (with 1 ≤ min) the preferred size is
selected. -/
theorem c3_selection_follows_claimed_order :
    (∀ (pmin pn pmax : Nat) (sizes : List Nat), 1 ≤ pn → pmin ≤ pn → pn ≤ pmax →
      bestSizeOfSizes pmin pn pmax sizes = claimedBest pmin pn pmax sizes) ∧
    (∀ pmin pn pmax : Nat, 1 ≤ pmin → pmin ≤ pn → pn ≤ pmax →
      bestSizeOfSizes pmin pn pmax
          ((List.range' pmin (pmax + 1 - pmin)).map (fun s => s - 1)) = pn) := by
  constructor
  · exact fun pmin pn pmax sizes hpn hlo hhi =>
      bestSize_eq_claimedBest pmin pn pmax sizes hpn hlo hhi
  · intro pmin pn pmax h1 hlo hhi
    rw [bestSize_eq_claimedBest pmin pn pmax _ (by omega) hlo hhi]
    unfold claimedBest
    rw [candSizes_full_range pmin pn pmax h1,
      if_pos (List.mem_range'_1.mpr ⟨hlo, by omega⟩)]

/-- C3 (witness): the amended theorem applied to bounds
(1024, 2048, 8192) with candidates of effective sizes 1024, 2048 and
4096: the preferred 2048 wins. -/
theorem c3_witness :
    bestSizeOfSizes 1024 2048 8192 [1023, 2047, 4095] = 2048 := by
  rw [c3_selection_follows_claimed_order.1 1024 2048 8192 [1023, 2047, 4095]
    (by norm_num) (by norm_num) (by norm_num)]
  decide


/-! ## Claim theorems: moduli scan -/

/-- Dropping a prefix never lengthens a list. -/
theorem dropWhileChar_length (p : Char → Bool) (l : List Char) :
    (l.dropWhile p).length ≤ l.length := by
  induction l with
  | nil => simp
  | cons c r ih =>
    rw [List.dropWhile_cons]
    split
    · exact Nat.le_trans ih (Nat.le_succ _)
    · exact le_refl _

/-- Whitespace skipping never lengthens the stream. -/
theorem skipWs_length (s : List Char) : (skipWs s).length ≤ s.length :=
  dropWhileChar_length isWsChar s

/-- Line recovery never lengthens the stream. -/
theorem dropLine_length (s : List Char) : (dropLine s).length ≤ s.length := by
  induction s with
  | nil => simp [dropLine]
  | cons c r ih =>
    unfold dropLine
    split
    · exact Nat.le_succ _
    · exact Nat.le_trans ih (Nat.le_succ _)

/-- Reading a token tail never lengthens the stream. -/
theorem readTok_length (s : List Char) : ∀ w, ((readTok w s).2).length ≤ s.length := by
  induction s with
  | nil => intro w; cases w <;> simp [readTok]
  | cons c r ih =>
    intro w
    cases w with
    | zero => simp [readTok]
    | succ v =>
      unfold readTok
      split
      · exact le_refl _
      · exact Nat.le_trans (ih v) (Nat.le_succ _)

/-- A successful string conversion consumes at least one character. -/
theorem scanStr_length {wr : Nat} {s t rest : List Char}
    (h : scanStr wr s = some (t, rest)) : rest.length < s.length := by
  unfold scanStr at h
  cases hw : skipWs s with
  | nil => rw [hw] at h; simp at h
  | cons c r =>
    rw [hw] at h
    simp only [Option.some.injEq, Prod.mk.injEq] at h
    have h1 : (skipWs s).length ≤ s.length := skipWs_length s
    rw [hw] at h1
    have h2 := readTok_length r wr
    rw [← h.2]
    simp only [List.length_cons] at h1
    omega

/-- A successful numeric conversion consumes at least one character. -/
theorem scanNat_length {s : List Char} {v : Nat} {rest : List Char}
    (h : scanNat s = some (v, rest)) : rest.length < s.length := by
  unfold scanNat at h
  by_cases hd : ((skipWs s).takeWhile Char.isDigit).isEmpty
  · rw [if_pos hd] at h; simp at h
  · rw [if_neg hd] at h
    simp only [Option.some.injEq, Prod.mk.injEq] at h
    have h1 : (skipWs s).length ≤ s.length := skipWs_length s
    cases hw : skipWs s with
    | nil => rw [hw] at hd; simp at hd
    | cons c r =>
      rw [hw] at hd h h1
      rw [List.takeWhile_cons] at hd
      by_cases hc : c.isDigit
      · rw [List.dropWhile_cons, if_pos hc] at h
        have h2 := dropWhileChar_length Char.isDigit r
        rw [← h.2]
        simp only [List.length_cons] at h1
        omega
      · rw [if_neg hc] at hd
        simp at hd


/-- A short `fscanf` read still consumed at least one character. -/
theorem fscanfRec_shortR_length {s rest : List Char}
    (h : fscanfRec s = FRes.shortR rest) : rest.length < s.length := by
  unfold fscanfRec at h
  split at h
  · exact absurd h (by simp)
  next ts s1 h1 =>
    have l1 := scanStr_length h1
    split at h
    next h2 =>
      cases h
      exact Nat.lt_of_le_of_lt (skipWs_length s1) l1
    next ty s2 h2 =>
      have l2 := scanNat_length h2
      split at h
      next h3 =>
        cases h
        exact Nat.lt_of_le_of_lt (skipWs_length s2) (by omega)
      next te s3 h3 =>
        have l3 := scanNat_length h3
        split at h
        next h4 =>
          cases h
          exact Nat.lt_of_le_of_lt (skipWs_length s3) (by omega)
        next tr s4 h4 =>
          have l4 := scanNat_length h4
          split at h
          next h5 =>
            cases h
            exact Nat.lt_of_le_of_lt (skipWs_length s4) (by omega)
          next sz s5 h5 =>
            have l5 := scanNat_length h5
            split at h
            next h6 =>
              cases h
              exact Nat.lt_of_le_of_lt (skipWs_length s5) (by omega)
            next gn s6 h6 =>
              have l6 := scanStr_length h6
              split at h
              next h7 =>
                cases h
                exact Nat.lt_of_le_of_lt (skipWs_length s6) (by omega)
              next md s7 h7 =>
                exact absurd h (by simp)

/-- A full `fscanf` read consumed at least one character. -/
theorem fscanfRec_fullR_length {s rest : List Char} {r : Rec7}
    (h : fscanfRec s = FRes.fullR r rest) : rest.length < s.length := by
  unfold fscanfRec at h
  split at h
  · exact absurd h (by simp)
  next ts s1 h1 =>
    have l1 := scanStr_length h1
    split at h
    · exact absurd h (by simp)
    next ty s2 h2 =>
      have l2 := scanNat_length h2
      split at h
      · exact absurd h (by simp)
      next te s3 h3 =>
        have l3 := scanNat_length h3
        split at h
        · exact absurd h (by simp)
        next tr s4 h4 =>
          have l4 := scanNat_length h4
          split at h
          · exact absurd h (by simp)
          next sz s5 h5 =>
            have l5 := scanNat_length h5
            split at h
            · exact absurd h (by simp)
            next gn s6 h6 =>
              have l6 := scanStr_length h6
              split at h
              · exact absurd h (by simp)
              next md s7 h7 =>
                have l7 := scanStr_length h7
                cases h
                exact Nat.lt_of_le_of_lt (skipWs_length s7) (by omega)


/-- The reservoir draw always succeeds at count 1. -/
theorem invn_one (x : Nat) : invnChance x 1 = true := by
  simp [invnChance, Nat.mod_one]

/-- With no best size held, an out-of-window proposal is never
adopted. -/
theorem better_zero_out (pmin pn pmax p : Nat) (hp : 1 ≤ p)
    (hw : ¬(pmin ≤ p ∧ p ≤ pmax)) : better pmin pn pmax 0 p = false := by
  unfold better
  split_ifs <;> first | rfl | omega

/-- With allocations succeeding, processing a record always succeeds
and preserves the property that a nonzero best size comes with held
generator and modulus strings. -/
theorem processRec_ok (pmin pn pmax : Nat) (r : Rec7) (rng : List Nat) (st : SelSt) :
    ∃ st4 rng2, processRec pmin pn pmax r rng true st = some (st4, rng2) ∧
      ((st.bestSize ≠ 0 → st.bestGen.isSome = true ∧ st.bestMod.isSome = true) →
        (st4.bestSize ≠ 0 → st4.bestGen.isSome = true ∧ st4.bestMod.isSome = true)) := by
  by_cases hf : r.ty ≠ 2 ∨ r.tests &&& 4 = 0
  · exact ⟨st, rng, by simp [processRec, hf], fun hinv => hinv⟩
  · by_cases hadopt : r.size + 1 ≠ st.bestSize ∧
        better pmin pn pmax st.bestSize (r.size + 1) = true
    · refine ⟨{ st with bestN := 1, bestSize := r.size + 1, bestGen := some r.gen, bestMod := some r.modl }, rng.tail, ?_, ?_⟩
      · simp [processRec, hf, hadopt, invn_one]
      · intro _ _
        simp
    · by_cases htie : r.size + 1 = st.bestSize
      · by_cases hchance : invnChance (rng.head?.getD 0) (st.bestN + 1) = true
        · refine ⟨{ st with bestN := st.bestN + 1, bestGen := some r.gen, bestMod := some r.modl }, rng.tail, ?_, ?_⟩
          · simp [processRec, hf, hadopt, htie, hchance]
          · intro _ _
            simp
        · refine ⟨{ st with bestN := st.bestN + 1 }, rng.tail, ?_, ?_⟩
          · simp [processRec, hf, hadopt, htie, hchance]
          · intro hinv h0
            simp only [] at h0
            exact hinv (by simpa using h0)
      · have hbet : ¬ better pmin pn pmax st.bestSize (r.size + 1) = true :=
          fun hb => hadopt ⟨htie, hb⟩
        refine ⟨st, rng, ?_, fun hinv => hinv⟩
        simp [processRec, hf, htie, hbet]


/-- A non-qualifying record leaves the selection state untouched when
no best size is held. -/
theorem processRec_no_qual (pmin pn pmax : Nat) (r : Rec7) (rng : List Nat)
    (allocOk : Bool) (st : SelSt) (hq : ¬ qualRec pmin pmax r) (hb : st.bestSize = 0) :
    processRec pmin pn pmax r rng allocOk st = some (st, rng) := by
  by_cases hf : r.ty ≠ 2 ∨ r.tests &&& 4 = 0
  · simp [processRec, hf]
  · push_neg at hf
    have hw : ¬(pmin ≤ r.size + 1 ∧ r.size + 1 ≤ pmax) := fun hc =>
      hq ⟨hf.1, hf.2, hc.1, hc.2⟩
    simp [processRec, hf.1, hf.2, hb,
      better_zero_out pmin pn pmax (r.size + 1) (by omega) hw]

/-- With allocations succeeding the scan loop always completes, and a
nonzero final best size comes with held generator and modulus
strings. -/
theorem scanLoop_ok (pmin pn pmax : Nat) :
    ∀ (fuel : Nat) (s : List Char) (rng : List Nat) (st : SelSt), s.length < fuel →
      ∃ st2, scanLoop pmin pn pmax fuel s rng true st = some st2 ∧
        ((st.bestSize ≠ 0 → st.bestGen.isSome = true ∧ st.bestMod.isSome = true) →
          (st2.bestSize ≠ 0 → st2.bestGen.isSome = true ∧ st2.bestMod.isSome = true)) := by
  intro fuel
  induction fuel with
  | zero => intro s rng st h; exact absurd h (Nat.not_lt_zero _)
  | succ m ih =>
    intro s rng st h
    cases s with
    | nil =>
      refine ⟨{ st with line := st.line + 1 }, rfl, ?_⟩
      intro hinv h0
      simpa using hinv (by simpa using h0)
    | cons c rest =>
      simp only [List.length_cons] at h
      by_cases hc : c = '#'
      · subst hc
        obtain ⟨st2, h2, hi⟩ := ih (dropLine rest) rng { st with line := st.line + 1 }
          (by have := dropLine_length rest; omega)
        refine ⟨st2, ?_, ?_⟩
        · simp only [scanLoop]
          rw [if_pos (by decide)]
          exact h2
        · intro hinv
          exact hi (fun h0 => by simpa using hinv (by simpa using h0))
      · have hcc : ¬ ((c == '#') = true) := by simpa using hc
        cases hres : fscanfRec (c :: rest) with
        | eofR =>
          refine ⟨{ st with line := st.line + 1 }, ?_, ?_⟩
          · simp only [scanLoop]
            rw [if_neg hcc, hres]
          · intro hinv h0
            simpa using hinv (by simpa using h0)
        | shortR r2 =>
          have hlen : (dropLine r2).length < m := by
            have h1 := fscanfRec_shortR_length hres
            have h2 := dropLine_length r2
            simp only [List.length_cons] at h1
            omega
          obtain ⟨st2, h2, hi⟩ := ih (dropLine r2) rng
            { st with line := st.line + 1, warns := st.warns ++ [st.line + 1] } hlen
          refine ⟨st2, ?_, ?_⟩
          · simp only [scanLoop]
            rw [if_neg hcc, hres]
            exact h2
          · intro hinv
            exact hi (fun h0 => by simpa using hinv (by simpa using h0))
        | fullR r r2 =>
          obtain ⟨st4, rng2, hpr, hpi⟩ :=
            processRec_ok pmin pn pmax r rng { st with line := st.line + 1 }
          have hlen : r2.length < m := by
            have h1 := fscanfRec_fullR_length hres
            simp only [List.length_cons] at h1
            omega
          obtain ⟨st2, h2, hi⟩ := ih r2 rng2 st4 hlen
          refine ⟨st2, ?_, ?_⟩
          · simp only [scanLoop]
            rw [if_neg hcc, hres]
            show (match processRec pmin pn pmax r rng true { st with line := st.line + 1 } with
              | none => none
              | some (st5, rng3) => scanLoop pmin pn pmax m r2 rng3 true st5) = some st2
            rw [hpr]
            exact h2
          · intro hinv
            exact hi (hpi (fun h0 => by simpa using hinv (by simpa using h0)))

/-- When no parsed record qualifies, the scan completes with best
size still 0. -/
theorem scanLoop_no_qual (pmin pn pmax : Nat) :
    ∀ (fuel : Nat) (s : List Char) (rng : List Nat) (st : SelSt), s.length < fuel →
      (∀ r ∈ parseRecs fuel s, ¬ qualRec pmin pmax r) → st.bestSize = 0 →
      ∃ st2, scanLoop pmin pn pmax fuel s rng true st = some st2 ∧ st2.bestSize = 0 := by
  intro fuel
  induction fuel with
  | zero => intro s rng st h; exact absurd h (Nat.not_lt_zero _)
  | succ m ih =>
    intro s rng st h hprem hb
    cases s with
    | nil => exact ⟨{ st with line := st.line + 1 }, rfl, by simpa using hb⟩
    | cons c rest =>
      simp only [List.length_cons] at h
      by_cases hc : c = '#'
      · subst hc
        simp only [parseRecs] at hprem
        rw [if_pos (by decide)] at hprem
        obtain ⟨st2, h2, hz⟩ := ih (dropLine rest) rng { st with line := st.line + 1 }
          (by have := dropLine_length rest; omega) hprem (by simpa using hb)
        refine ⟨st2, ?_, hz⟩
        simp only [scanLoop]
        rw [if_pos (by decide)]
        exact h2
      · have hcc : ¬ ((c == '#') = true) := by simpa using hc
        cases hres : fscanfRec (c :: rest) with
        | eofR =>
          refine ⟨{ st with line := st.line + 1 }, ?_, by simpa using hb⟩
          simp only [scanLoop]
          rw [if_neg hcc, hres]
        | shortR r2 =>
          simp only [parseRecs] at hprem
          rw [if_neg hcc, hres] at hprem
          have hlen : (dropLine r2).length < m := by
            have h1 := fscanfRec_shortR_length hres
            have h2 := dropLine_length r2
            simp only [List.length_cons] at h1
            omega
          obtain ⟨st2, h2, hz⟩ := ih (dropLine r2) rng
            { st with line := st.line + 1, warns := st.warns ++ [st.line + 1] }
            hlen hprem (by simpa using hb)
          refine ⟨st2, ?_, hz⟩
          simp only [scanLoop]
          rw [if_neg hcc, hres]
          exact h2
        | fullR r r2 =>
          simp only [parseRecs] at hprem
          rw [if_neg hcc, hres] at hprem
          have hq : ¬ qualRec pmin pmax r := hprem r (by simp)
          have hpp : processRec pmin pn pmax r rng true { st with line := st.line + 1 } =
              some ({ st with line := st.line + 1 }, rng) :=
            processRec_no_qual pmin pn pmax r rng true _ hq (by simpa using hb)
          have hlen : r2.length < m := by
            have h1 := fscanfRec_fullR_length hres
            simp only [List.length_cons] at h1
            omega
          have hprem2 : ∀ x ∈ parseRecs m r2, ¬ qualRec pmin pmax x := fun x hx =>
            hprem x (List.mem_cons_of_mem r hx)
          obtain ⟨st2, h2, hz⟩ := ih r2 rng { st with line := st.line + 1 }
            hlen hprem2 (by simpa using hb)
          refine ⟨st2, ?_, hz⟩
          simp only [scanLoop]
          rw [if_neg hcc, hres]
          show (match processRec pmin pn pmax r rng true { st with line := st.line + 1 } with
            | none => none
            | some (st5, rng3) => scanLoop pmin pn pmax m r2 rng3 true st5) = some st2
          rw [hpp]
          exact h2



/-- C5 (counterexample): a readable database whose only record is not a
safe prime (type 5) qualifies no record; the scan finishes without
error holding best size 0 — the valid negative "no suitable group"
outcome — but `ssh_retrieve_dhgroup` maps that outcome to the same
`SSH_ERROR` return it uses for real failures, refuting the claim that
group retrieval raises no error. -/
theorem c5_no_group_mapped_to_error :
    scanFile 1024 2048 8192 (("20240101 5 4 1 2047 2 FF\n").toList) [] true =
      some ⟨0, 0, none, none, 2, []⟩ ∧
    retrieveDhgroup true 1024 2048 8192 (("20240101 5 4 1 2047 2 FF\n").toList) [] true =
      RetrOut.err := by
  decide

/-- C5 (amended): for every bounds and every readable database in
which no record qualifies, the scan completes without error and
reports best size 0 (the valid negative outcome, with a warning
logged, not an error), and the outer retrieval function then returns
the `SSH_ERROR` code — the caller learns of the no-group outcome
through that error return, not through an error-free result. -/
theorem c5_no_qualifying_record_outcome :
    ∀ (pmin pn pmax : Nat) (s : List Char) (rng : List Nat),
      (∀ r ∈ parseRecs (s.length + 1) s, ¬ qualRec pmin pmax r) →
      (∃ st, scanFile pmin pn pmax s rng true = some st ∧ st.bestSize = 0) ∧
      retrieveDhgroup true pmin pn pmax s rng true = RetrOut.err := by
  intro pmin pn pmax s rng hprem
  obtain ⟨st2, h2, hz⟩ := scanLoop_no_qual pmin pn pmax (s.length + 1) s rng initSel
    (by omega) hprem rfl
  have hf : scanFile pmin pn pmax s rng true = some st2 := h2
  refine ⟨⟨st2, hf, hz⟩, ?_⟩
  simp [retrieveDhgroup, hf, hz]

/-- C5 (witness): the amended theorem applied to the empty database. -/
theorem c5_witness :
    retrieveDhgroup true 1024 2048 8192 [] [] true = RetrOut.err :=
  (c5_no_qualifying_record_outcome 1024 2048 8192 [] [] (by simp [parseRecs])).2

/-- C9 (counterexample): a malformed line with six fields followed by
a valid qualifying 2048-bit record.  `fscanf`'s whitespace handling
makes the seventh conversion of the short line consume the first token
of the following line, so the scan accepts a merged bogus record of
effective size 1024 with modulus string then logs the remainder of the
valid line as invalid (warning on line 2, not line 1) — the valid
record is never yielded, refuting the claim as universally stated. -/
theorem c9_short_line_corrupts_next_record :
    scanFile 1024 2048 8192 (("x 2 4 1 1023 2\nt 2 4 1 2047 5 FFFF\n").toList) [0, 0] true =
      some ⟨1024, 1, some (("2").toList), some (("t").toList), 3, [2]⟩ ∧
    (1024 : Nat) ≠ 2048 := by
  decide

/-- C9 (amended): a malformed database line never aborts the scan —
with allocations succeeding the scan always completes on every input;
a malformed line whose defect is detected within the line (here a
non-numeric token in a numeric field) is logged and skipped to the end
of the line, and a following valid qualifying record is still
selected; and only an unreadable source (or an allocation failure)
aborts retrieval.  A short line whose first six fields all parse may
however swallow the start of the next line (see the counterexample). -/
theorem c9_malformed_lines_never_abort :
    (∀ (pmin pn pmax : Nat) (s : List Char) (rng : List Nat),
      scanFile pmin pn pmax s rng true ≠ none) ∧
    scanFile 1024 2048 8192 (("x y z\nt 2 4 1 2047 5 FFFF\n").toList) [0] true =
      some ⟨2048, 1, some (("5").toList), some (("FFFF").toList), 3, [1]⟩ ∧
    (∀ (pmin pn pmax : Nat) (s : List Char) (rng : List Nat) (allocOk : Bool),
      retrieveDhgroup false pmin pn pmax s rng allocOk = RetrOut.err) := by
  refine ⟨?_, by decide, ?_⟩
  · intro pmin pn pmax s rng
    obtain ⟨st2, h2, _⟩ := scanLoop_ok pmin pn pmax (s.length + 1) s rng initSel (by omega)
    have hf : scanFile pmin pn pmax s rng true = some st2 := h2
    simp [hf]
  · intro pmin pn pmax s rng allocOk
    simp [retrieveDhgroup]

/-- C9 (witness): the no-abort part of the amended theorem applied to
the empty stream. -/
theorem c9_witness :
    scanFile 1024 2048 8192 [] [] true ≠ none :=
  c9_malformed_lines_never_abort.1 1024 2048 8192 [] []

/-- C10: a draw with tied-record count 1 always succeeds (any 32-bit
value modulo 1 is 0), so the first qualifying record at a newly
adopted best size always replaces the held pair; consequently, absent
allocation failure, any final state with a nonzero best size holds
both a generator and a modulus string. -/
theorem c10_new_best_always_replaces :
    (∀ x : Nat, invnChance x 1 = true) ∧
    (∀ (pmin pn pmax : Nat) (s : List Char) (rng : List Nat) (st : SelSt),
      scanFile pmin pn pmax s rng true = some st → st.bestSize ≠ 0 →
      st.bestGen.isSome = true ∧ st.bestMod.isSome = true) := by
  refine ⟨invn_one, ?_⟩
  intro pmin pn pmax s rng st hscan h0
  obtain ⟨st2, h2, hi⟩ := scanLoop_ok pmin pn pmax (s.length + 1) s rng initSel (by omega)
  have hf : scanFile pmin pn pmax s rng true = some st2 := h2
  rw [hf] at hscan
  cases hscan
  exact hi (fun hx => absurd rfl hx) h0

/-- C10 (witness): the theorem applied to a single-record database
whose record is adopted and therefore held. -/
theorem c10_witness :
    invnChance 7 1 = true ∧
    ((⟨2048, 1, some (("2").toList), some (("ABC").toList), 2, []⟩ : SelSt).bestGen.isSome = true ∧
      (⟨2048, 1, some (("2").toList), some (("ABC").toList), 2, []⟩ : SelSt).bestMod.isSome = true) :=
  ⟨c10_new_best_always_replaces.1 7,
    c10_new_best_always_replaces.2 1024 2048 8192
      (("20240101 2 6 100 2047 2 ABC\n").toList) [0]
      ⟨2048, 1, some (("2").toList), some (("ABC").toList), 2, []⟩ (by decide) (by decide)⟩

end DhGex
